import Mathlib

/-!
Verification development for the BrainPreserve nutrition-tables module
(`src/assets/nutrition-tables.js`).

The module is browser JavaScript.  We embed it shallowly:

* a JS string is a `List Char` (`JSStr`); `null`/`undefined` string inputs
  are `Option JSStr` with `none` for the nullish values;
* a parsed CSV row (a plain JS object of string cells) is an association
  list `Row := List (JSStr × JSStr)` in property-insertion order;
* a JS `Map` is an association list in insertion order (`MapL`); the module
  only ever inserts with `if (!m.has(k)) m.set(k, v)`, which we model with
  `setIfAbsent`;
* the module-level `DATA.masterIndex` / `DATA.aliasToCanon` maps are passed
  explicitly as the `mi` / `ai` arguments of each function that reads them;
* the host string functions `String.prototype.normalize('NFKC')` and
  `String.prototype.toLowerCase()` are modelled character-wise
  (`nfkcChar`, `lowerChar`) on the repertoire the data actually uses:
  the finite compatibility table of `nfkcChar` and the case table of
  `lowerChar` follow the Unicode mappings on the covered characters and
  are the identity elsewhere;
* `TextDecoder('utf-8').decode` is a parameter `decode`; `none` models the
  thrown exception that the source catches, and `utf8DecodeOpt` is the
  concrete WHATWG-style decoder (invalid sequences become U+FFFD);
* regex operations of the source (`replace`, `test`, `match` counting) are
  implemented as explicit scanners over `List Char` with JavaScript's
  leftmost-position, first-alternative semantics.
-/

namespace NT

/-- A JavaScript string, as its sequence of UTF-16-ish code points. -/
abbrev JSStr := List Char

/-- A CSV row: property name/value pairs in insertion order. -/
abbrev Row := List (JSStr × JSStr)

/-- A JS `Map` from strings to strings, in insertion order. -/
abbrev MapL := List (JSStr × JSStr)

/-- The JavaScript regex `\s` / `trim` whitespace set. -/
def jsWS (c : Char) : Bool :=
  decide (c.toNat = 0x09) || decide (c.toNat = 0x0A) || decide (c.toNat = 0x0B) ||
  decide (c.toNat = 0x0C) || decide (c.toNat = 0x0D) || decide (c.toNat = 0x20) ||
  decide (c.toNat = 0xA0) || decide (c.toNat = 0x1680) ||
  (decide (0x2000 ≤ c.toNat) && decide (c.toNat ≤ 0x200A)) ||
  decide (c.toNat = 0x2028) || decide (c.toNat = 0x2029) || decide (c.toNat = 0x202F) ||
  decide (c.toNat = 0x205F) || decide (c.toNat = 0x3000) || decide (c.toNat = 0xFEFF)

/-- `\p{Letter}` of the `norm` regex, on the Latin repertoire the tables use:
ASCII letters plus Latin-1/Extended letters (U+00C0–U+024F minus the two
operators `×` and `÷`). Identity of the class outside this repertoire is not
needed by any theorem below. -/
def uLetter (c : Char) : Bool :=
  c.isAlpha ||
  decide (0xC0 ≤ c.toNat ∧ c.toNat ≤ 0x24F ∧ c.toNat ≠ 0xD7 ∧ c.toNat ≠ 0xF7)

/-- `\p{Number}` of the `norm` regex on the covered repertoire: ASCII digits
plus the Latin-1 superscripts and vulgar fractions. -/
def uNumber (c : Char) : Bool :=
  c.isDigit ||
  decide (c.toNat = 0xB2 ∨ c.toNat = 0xB3 ∨ c.toNat = 0xB9 ∨
          c.toNat = 0xBC ∨ c.toNat = 0xBD ∨ c.toNat = 0xBE)

/-- The character class kept by `norm`'s
`replace(/[^\p{Letter}\p{Number}\s\-\/&'().,]/gu, '')`:
letters, numbers, whitespace and the punctuation allow-list. -/
def keepChar (c : Char) : Bool :=
  uLetter c || uNumber c || jsWS c ||
  ([ '-', '/', '&', Char.ofNat 39, '(', ')', '.', ',' ].contains c)

/-- Character-wise model of `String.prototype.normalize('NFKC')`: the Unicode
compatibility mappings on the covered repertoire (NBSP, the `fi`/`fl`
ligatures, a few fullwidth forms), identity elsewhere. -/
def nfkcChar (c : Char) : List Char :=
  if c = '\u00A0' then [ ' ' ]
  else if c = '\uFB01' then [ 'f', 'i' ]
  else if c = '\uFB02' then [ 'f', 'l' ]
  else if c = '\uFF21' then [ 'A' ]
  else if c = '\uFF41' then [ 'a' ]
  else if c = '\uFF11' then [ '1' ]
  else [c]

/-- Character-wise model of `String.prototype.toLowerCase()`: ASCII `A–Z`,
the Latin-1 uppercase range `À–Þ` (minus `×`), and the one-to-two mapping of
`İ` (U+0130 → `i` + combining dot above); identity elsewhere. -/
def lowerChar (c : Char) : List Char :=
  if 0x41 ≤ c.toNat ∧ c.toNat ≤ 0x5A then [Char.ofNat (c.toNat + 0x20)]
  else if 0xC0 ≤ c.toNat ∧ c.toNat ≤ 0xDE ∧ c.toNat ≠ 0xD7 then [Char.ofNat (c.toNat + 0x20)]
  else if c = '\u0130' then [ 'i', '\u0307' ]
  else [c]

/-- `s.normalize('NFKC')` over the character-wise model. -/
def nfkcStr : List Char → List Char
  | [] => []
  | c :: cs => nfkcChar c ++ nfkcStr cs

/-- `s.toLowerCase()` over the character-wise model. -/
def lowerStr : List Char → List Char
  | [] => []
  | c :: cs => lowerChar c ++ lowerStr cs

/-- `s.replace(/\s+/g, ' ')`: every maximal whitespace run becomes one space.
The flag records whether the scanner is inside a run it already replaced. -/
def squashAux : Bool → List Char → List Char
  | _, [] => []
  | prevWS, c :: cs =>
    if jsWS c then
      if prevWS then squashAux true cs else ' ' :: squashAux true cs
    else c :: squashAux false cs

/-- `s.replace(/\s+/g, ' ')`. -/
def squashWS (l : List Char) : List Char := squashAux false l

/-- Remove trailing whitespace (the right half of `String.prototype.trim`). -/
def dropTrailing : List Char → List Char
  | [] => []
  | c :: cs =>
    let r := dropTrailing cs
    if r.isEmpty && jsWS c then [] else c :: r

/-- `String.prototype.trim()`. -/
def jsTrim (l : List Char) : List Char := dropTrailing (l.dropWhile jsWS)

/-- The `norm` pipeline of the source on an actual string:
NFKC, lowercase, strip the disallowed characters, collapse whitespace, trim. -/
def normStr (s : List Char) : List Char :=
  jsTrim (squashWS ((lowerStr (nfkcStr s)).filter keepChar))

/-- `norm(s)` of the source, lines 42–49: `String(s || '')` coerces
`null`/`undefined` (and keeps `''`) to the empty string, then the pipeline. -/
def norm (s : Option JSStr) : JSStr := normStr (s.getD [])

/-- JavaScript `x || y` for a possibly-missing string `x`:
`undefined` and `''` are falsy. -/
def jsOr (x : Option JSStr) (y : JSStr) : JSStr :=
  match x with
  | some v => if v.isEmpty then y else v
  | none => y

/-- `CFG.keyColumns` (line 22). -/
def keyColumns : List JSStr :=
  [ "ingredient_name".toList, "ingredient".toList, "food".toList,
    "item".toList, "name".toList ]

/-- `CFG.aliasColumns` (line 23). -/
def aliasColumns : List JSStr :=
  [ "aliases".toList, "alias".toList, "also_known_as".toList ]

/-- `pick(obj, candidateKeys)` (lines 129–136): for the first candidate name
that some object key matches case-insensitively, return that key and its
value. -/
def pick (obj : Row) : List JSStr → Option (JSStr × JSStr)
  | [] => none
  | k :: ks =>
    match (obj.map Prod.fst).find? (fun h => lowerStr h == lowerStr k) with
    | some hit => some (hit, (obj.lookup hit).getD [])
    | none => pick obj ks

/-- `getKeyValue(row)` (lines 138–141). -/
def getKeyValue (row : Row) : JSStr :=
  match pick row keyColumns with
  | some p => p.2
  | none => []

/-- `String.prototype.split(/[;,]/g)`: segments between `;`/`,` delimiters. -/
def splitDelim : List Char → List JSStr
  | [] => [[]]
  | c :: cs =>
    if c = ';' ∨ c = ',' then [] :: splitDelim cs
    else
      match splitDelim cs with
      | s :: rest => (c :: s) :: rest
      | [] => [[c]]

/-- `splitAliases(val)` (lines 143–146): empty/nullish value gives no aliases,
otherwise split on `;`/`,`, normalize each token, drop the falsy (empty)
ones. -/
def splitAliases (val : JSStr) : List JSStr :=
  if val.isEmpty then []
  else ((splitDelim val).map normStr).filter (fun x => !x.isEmpty)

/-- `if (!m.has(k)) m.set(k, v)`: first occurrence wins. -/
def setIfAbsent (m : MapL) (k v : JSStr) : MapL :=
  if (m.lookup k).isSome then m else m ++ [(k, v)]

/-- The body of `buildMasterIndexes`'s loop (lines 183–196) for one master
row, threading the (name index, alias index) pair. -/
def buildStep (st : MapL × MapL) (row : Row) : MapL × MapL :=
  let rawName := getKeyValue row
  if rawName.isEmpty then st
  else
    let canonName := jsTrim rawName
    let normName := norm (some rawName)
    let mi := setIfAbsent st.1 normName canonName
    match pick row aliasColumns with
    | some aliasField =>
      if aliasField.2.isEmpty then (mi, st.2)
      else (mi, (splitAliases aliasField.2).foldl (fun m a => setIfAbsent m a canonName) st.2)
    | none => (mi, st.2)

/-- `buildMasterIndexes()` (lines 179–197): clear both indexes, then fold the
per-row step over the master rows. -/
def buildMasterIndexes (master : List Row) : MapL × MapL :=
  master.foldl buildStep ([], [])

/-- `lookupCanonical(nameOrAlias)` (lines 199–205): normalize, refuse the
empty key, then the name index before the alias index. -/
def lookupCanonical (mi ai : MapL) (nameOrAlias : Option JSStr) : Option JSStr :=
  let n := norm nameOrAlias
  if n.isEmpty then none
  else
    match mi.lookup n with
    | some c => some c
    | none => ai.lookup n

/-- `Array.from(new Set(out))`: first-seen-order deduplication. -/
def dedupFirstAux (seen : List JSStr) : List JSStr → List JSStr
  | [] => []
  | x :: xs => if seen.contains x then dedupFirstAux seen xs else x :: dedupFirstAux (x :: seen) xs

/-- `Array.from(new Set(out))`. -/
def dedupFirst (l : List JSStr) : List JSStr := dedupFirstAux [] l

/-- The canonical identity `lookupCanonical(name) || String(name || '').trim()`
used for one entry of `canonicalizeList` (line 210). -/
def entryId (mi ai : MapL) (name : Option JSStr) : JSStr :=
  jsOr (lookupCanonical mi ai name) (jsTrim (name.getD []))

/-- `canonicalizeList(list)` (lines 207–214): non-array input acts as `[]`;
each entry resolves with the trimmed-raw fallback; falsy results are not
pushed; the result is deduplicated in first-seen order. -/
def canonicalizeList (mi ai : MapL) (list : Option (List (Option JSStr))) : List JSStr :=
  let out := (list.getD []).foldl
    (fun acc name =>
      let c := entryId mi ai name
      if c.isEmpty then acc else acc ++ [c]) []
  dedupFirst out

/-- The canonical identity `lookupCanonical(keyVal) || String(keyVal).trim()`
computed for a table row by `filterByIngredients` (line 222). -/
def rowId (mi ai : MapL) (row : Row) : JSStr :=
  jsOr (lookupCanonical mi ai (some (getKeyValue row))) (jsTrim (getKeyValue row))

/-- The row loop shared by both revisions of `filterByIngredients`
(lines 218–225 and 1384–1391): skip rows with an empty key value, keep a row
iff its resolved identity is in the target set. -/
def filterLoop (mi ai : MapL) (ingredientSet : List JSStr) : List Row → List Row
  | [] => []
  | row :: rest =>
    let keyVal := getKeyValue row
    if keyVal.isEmpty then filterLoop mi ai ingredientSet rest
    else
      if ingredientSet.contains (jsOr (lookupCanonical mi ai (some keyVal)) (jsTrim keyVal))
      then row :: filterLoop mi ai ingredientSet rest
      else filterLoop mi ai ingredientSet rest

/-- `!ingredientSet || ingredientSet.size === 0`: the target `Set` is absent
(`none`) or empty.  A `Set` of strings is modelled as its insertion-order
element list (deduplication is irrelevant to `has`/`size === 0`). -/
def setIsMissingOrEmpty (s : Option (List JSStr)) : Bool :=
  match s with
  | none => true
  | some l => l.isEmpty

/-- `filterByIngredients(tableRows, ingredientSet)` of the renders-all
revision (lines 216–226): missing/empty set returns `tableRows.slice()`, a
copy of every row. -/
def filterByIngredients (mi ai : MapL) (tableRows : List Row)
    (ingredientSet : Option (List JSStr)) : List Row :=
  if setIsMissingOrEmpty ingredientSet then tableRows
  else filterLoop mi ai (ingredientSet.getD []) tableRows

/-- `filterByIngredients(tableRows, ingredientSet)` of the superseded
revision (lines 1382–1392): identical loop, but a missing/empty set returns
`[]`. -/
def filterByIngredientsV2 (mi ai : MapL) (tableRows : List Row)
    (ingredientSet : Option (List JSStr)) : List Row :=
  if setIsMissingOrEmpty ingredientSet then []
  else filterLoop mi ai (ingredientSet.getD []) tableRows

/-- Lowercase an ASCII letter; the canonicalization JavaScript's
case-insensitive regex flag applies to the ASCII patterns used here. -/
def asciiLower (c : Char) : Char :=
  if 0x41 ≤ c.toNat ∧ c.toNat ≤ 0x5A then Char.ofNat (c.toNat + 0x20) else c

/-- Case-insensitive anchored match of an ASCII lowercase pattern at the
start of a string (`/^pat/i`). -/
def matchCI : List Char → JSStr → Bool
  | [], _ => true
  | _ :: _, [] => false
  | p :: ps, c :: cs => (asciiLower c == p) && matchCI ps cs

/-- `/^_+\d*$/.test(l)`: one or more underscores then only digits. -/
def underscoreDigits (l : JSStr) : Bool :=
  !(l.takeWhile (fun c => c == '_')).isEmpty &&
  (l.dropWhile (fun c => c == '_')).all Char.isDigit

/-- `/^column\d+$/i.test(t)`: `column` (case-insensitive) then at least one
digit, to the end. -/
def columnDigits (t : JSStr) : Bool :=
  matchCI ( "column".toList) t && !(t.drop 6).isEmpty && (t.drop 6).all Char.isDigit

/-- `isHeaderNameOk(name)` (lines 102–111). -/
def isHeaderNameOk (name : JSStr) : Bool :=
  if name.isEmpty then false
  else
    let t := jsTrim name
    if t.isEmpty then false
    else
      let l := lowerStr t
      if (l == [ '_' ]) || underscoreDigits l then false
      else if matchCI ( "unnamed".toList) t then false
      else if columnDigits t then false
      else true

/-- The `Set` of all row keys accumulated by `chooseHeaders` (lines 115–116),
in first-seen order. -/
def keysUnion (rows : List Row) : List JSStr :=
  rows.foldl (fun acc r => (r.map Prod.fst).foldl
    (fun a k => if a.contains k then a else a ++ [k]) acc) []

/-- Whether some row has a non-blank cell in column `h`
(`rows.some(r => String(r[h] ?? '').trim() !== '')`, line 118). -/
def someNonblank (rows : List Row) (h : JSStr) : Bool :=
  rows.any (fun r => !(jsTrim ((r.lookup h).getD [])).isEmpty)

/-- `chooseHeaders(rows)` (lines 113–120). -/
def chooseHeaders (rows : List Row) : List JSStr :=
  if rows.isEmpty then []
  else ((keysUnion rows).filter isHeaderNameOk).filter (someNonblank rows)

/-- The single characters of the mojibake-marker regex's character class
`[ÃÂâ€¢]` (lines 54 and 59): U+00C3, U+00C2, U+00E2, U+20AC, U+00A2. -/
def markerClass : List Char :=
  [ 'Ã', 'Â', 'â', '€', '¢' ]

/-- The multi-character alternatives of the marker regex, in source order:
`â␀80`, `Ã¢Â`, `Ãƒ` and `ï¿½` (U+00E2 U+0080 / U+00C3 U+00A2 U+00C2 /
U+00C3 U+0192 / U+00EF U+00BF U+00BD). -/
def markerLits : List (List Char) :=
  [ [ 'â', '\u0080' ],
    [ 'Ã', '¢', 'Â' ],
    [ 'Ã', 'ƒ' ],
    [ 'ï', '¿', '½' ] ]

/-- First literal alternative matching at the head of `s`, with its length
(JavaScript alternation is leftmost-alternative-first). -/
def tryLits (alts : List (List Char)) (s : List Char) : Option Nat :=
  alts.findSome? (fun a => if a.isPrefixOf s then some a.length else none)

/-- Match of the marker regex `[ÃÂâ€¢]|â␀80|Ã¢Â|Ãƒ|ï¿½` at the head of `s`:
the character class is the first alternative, then the literals. -/
def markerMatch (s : List Char) : Option Nat :=
  match s with
  | [] => none
  | c :: _ => if markerClass.contains c then some 1 else tryLits markerLits s

/-- The scanning loop of `countMarkers`.  Each step consumes at least one
character, so a fuel of the string's length always suffices; the fuel only
makes the recursion structural. -/
def countMarkersGo : Nat → List Char → Nat
  | _, [] => 0
  | 0, _ => 0
  | fuel + 1, c :: rest =>
    match markerMatch (c :: rest) with
    | some (n + 1) => 1 + countMarkersGo fuel (rest.drop n)
    | _ => countMarkersGo fuel rest

/-- `(t.match(/[ÃÂâ€¢]|â␀80|Ã¢Â|Ãƒ|ï¿½/g) || []).length` (line 59): the number
of non-overlapping leftmost matches of the marker regex. -/
def countMarkers (s : List Char) : Nat := countMarkersGo s.length s

/-- `/[ÃÂâ€¢]|â␀80|Ã¢Â|Ãƒ|ï¿½/.test(s)` (line 54): a match exists iff the
global match count is nonzero. -/
def isSuspect (s : List Char) : Bool := countMarkers s != 0

/-- `ch.charCodeAt(0) & 0xFF` after the code-point spread `[...s]` (line 57):
a BMP character's low byte; a supplementary character contributes the low
byte of its high surrogate. -/
def lowByte (c : Char) : Nat :=
  if c.toNat < 0x10000 then c.toNat % 256
  else (0xD800 + (c.toNat - 0x10000) / 0x400) % 256

/-- `if (s.charCodeAt(0) === 0xFEFF) s = s.slice(1)` (line 62); on the empty
string `charCodeAt` is `NaN` and nothing is stripped. -/
def stripBOM (s : List Char) : List Char :=
  match s with
  | [] => []
  | c :: rest => if c.toNat = 0xFEFF then rest else c :: rest

/-- `maybeRecodeUTF8(s)` (lines 52–64).  `decode` is
`new TextDecoder('utf-8').decode`; `none` models the exception path that the
`try`/`catch` absorbs (keeping `s`).  A successful redecode replaces `s` iff
its marker count is less than or equal to the original's; the BOM strip runs
after the `try`/`catch` on every suspect path. -/
def maybeRecodeUTF8 (decode : List Nat → Option (List Char)) (s : List Char) : List Char :=
  if !isSuspect s then s
  else
    let s1 :=
      match decode (s.map lowByte) with
      | some decoded => if countMarkers decoded ≤ countMarkers s then decoded else s
      | none => s
    stripBOM s1

/-- The Unicode replacement character U+FFFD. -/
def replChar : Char := '�'

/-- A UTF-8 continuation byte. -/
def contB (b : Nat) : Bool := decide (0x80 ≤ b) && decide (b ≤ 0xBF)

/-- WHATWG UTF-8 decoding with U+FFFD replacement, as
`new TextDecoder('utf-8').decode` performs on a `Uint8Array`: strict
continuation ranges (no overlongs, no surrogates, max U+10FFFF), and an
invalid byte inside a sequence is reconsumed after emitting U+FFFD. -/
def utf8Decode : List Nat → List Char
  | [] => []
  | b :: rest =>
    if b < 0x80 then Char.ofNat b :: utf8Decode rest
    else if b < 0xC2 then replChar :: utf8Decode rest
    else if b ≤ 0xDF then
      match rest with
      | [] => [replChar]
      | b2 :: rest2 =>
        if contB b2 then
          Char.ofNat ((b - 0xC0) * 0x40 + (b2 - 0x80)) :: utf8Decode rest2
        else replChar :: utf8Decode (b2 :: rest2)
    else if b ≤ 0xEF then
      match rest with
      | [] => [replChar]
      | b2 :: rest2 =>
        if (if b = 0xE0 then 0xA0 else 0x80) ≤ b2 ∧ b2 ≤ (if b = 0xED then 0x9F else 0xBF) then
          match rest2 with
          | [] => [replChar]
          | b3 :: rest3 =>
            if contB b3 then
              Char.ofNat ((b - 0xE0) * 0x1000 + (b2 - 0x80) * 0x40 + (b3 - 0x80)) :: utf8Decode rest3
            else replChar :: utf8Decode (b3 :: rest3)
        else replChar :: utf8Decode (b2 :: rest2)
    else if b ≤ 0xF4 then
      match rest with
      | [] => [replChar]
      | b2 :: rest2 =>
        if (if b = 0xF0 then 0x90 else 0x80) ≤ b2 ∧ b2 ≤ (if b = 0xF4 then 0x8F else 0xBF) then
          match rest2 with
          | [] => [replChar]
          | b3 :: rest3 =>
            if contB b3 then
              match rest3 with
              | [] => [replChar]
              | b4 :: rest4 =>
                if contB b4 then
                  Char.ofNat ((b - 0xF0) * 0x40000 + (b2 - 0x80) * 0x1000 +
                    (b3 - 0x80) * 0x40 + (b4 - 0x80)) :: utf8Decode rest4
                else replChar :: utf8Decode (b4 :: rest4)
            else replChar :: utf8Decode (b3 :: rest3)
        else replChar :: utf8Decode (b2 :: rest2)
    else replChar :: utf8Decode rest

/-- The concrete decoder for the environments where `TextDecoder` exists:
decoding never throws (invalid input becomes U+FFFD). -/
def utf8DecodeOpt (bs : List Nat) : Option (List Char) := some (utf8Decode bs)

/-- Generic model of `String.prototype.replace(pat, rep)` with a global
regex: scan left to right; where the matcher fires (consuming at least one
character), emit the replacement and skip the match, else copy the
character. -/
def replaceScanGo (m : List Char → Option Nat) (rep : List Char) : Nat → List Char → List Char
  | _, [] => []
  | 0, s => s
  | fuel + 1, c :: rest =>
    match m (c :: rest) with
    | some (n + 1) => rep ++ replaceScanGo m rep fuel (rest.drop n)
    | _ => c :: replaceScanGo m rep fuel rest

/-- Generic model of `String.prototype.replace(pat, rep)` with a global
regex, with the structural fuel of `countMarkersGo` (every match consumes
at least one character, so the string's length suffices). -/
def replaceScan (m : List Char → Option Nat) (rep : List Char) (s : List Char) : List Char :=
  replaceScanGo m rep s.length s

/-- The `replacements` table of `cleanDisplay` (lines 73–87): for each pass,
the literal alternatives of its regex in source order (transcribed
code point by code point from the file), and the replacement. -/
def replacements : List (List (List Char) × List Char) :=
  [ ( [ [ 'Ã', '¢', 'Â', '\u0080', 'Â', '\u0099' ],
        [ 'Ã', '¢', 'Â', '€', 'Â', '™' ],
        [ 'â', '€', '™' ], [ 'â', '\u0080', '\u0099' ] ],
      [ '’' ] ),
    ( [ [ 'Ã', '¢', 'Â', '\u0080', 'Â', '˜' ],
        [ 'Ã', '¢', 'Â', '€', 'Â', '˜' ],
        [ 'â', '€', '˜' ], [ 'â', '\u0080', '˜' ] ],
      [ '‘' ] ),
    ( [ [ 'Ã', '¢', 'Â', '\u0080', 'Â', 'œ' ],
        [ 'Ã', '¢', 'Â', '€', 'Â', 'œ' ],
        [ 'â', '€', 'œ' ], [ 'â', '\u0080', '\u009C' ] ],
      [ '“' ] ),
    ( [ [ 'Ã', '¢', 'Â', '\u0080', 'Â', '�' ],
        [ 'Ã', '¢', 'Â', '€', 'Â', '�' ],
        [ 'â', '€', '\u009D' ], [ 'â', '\u0080', '\u009D' ] ],
      [ '”' ] ),
    ( [ [ 'Ã', '¢', 'Â', '\u0080', 'Â', '“' ],
        [ 'Ã', '¢', 'Â', '€', 'Â', '“' ],
        [ 'â', '€', '“' ], [ 'â', '\u0080', '\u0093' ] ],
      [ '–' ] ),
    ( [ [ 'Ã', '¢', 'Â', '\u0080', 'Â', '”' ],
        [ 'Ã', '¢', 'Â', '€', 'Â', '”' ],
        [ 'â', '€', '”' ], [ 'â', '\u0080', '\u0094' ] ],
      [ '—' ] ),
    ( [ [ 'Ã', '¢', 'Â', '\u0080', 'Â', '¦' ],
        [ 'Ã', '¢', 'Â', '€', 'Â', '¦' ],
        [ 'â', '€', '¦' ], [ 'â', '\u0080', '¦' ] ],
      [ '…' ] ),
    ( [ [ 'Ã', '‚' ], [ 'Â' ] ], [] ) ]

/-- `for (const [pat, rep] of replacements) s = s.replace(pat, rep)`
(line 88). -/
def applyReps (s : List Char) : List Char :=
  replacements.foldl (fun t p => replaceScan (tryLits p.1) p.2 t) s

/-- Matcher for `/�\s*–/` (line 91); `\s*` is effectively greedy here
since the following literal is never whitespace. -/
def q1Match (s : List Char) : Option Nat :=
  match s with
  | [] => none
  | c :: rest =>
    if c = '�' then
      match rest.drop (rest.takeWhile jsWS).length with
      | d :: _ => if d = '–' then some ((rest.takeWhile jsWS).length + 2) else none
      | [] => none
    else none

/-- Matcher for `/–\s*�/` (line 92). -/
def q2Match (s : List Char) : Option Nat :=
  match s with
  | [] => none
  | c :: rest =>
    if c = '–' then
      match rest.drop (rest.takeWhile jsWS).length with
      | d :: _ => if d = '�' then some ((rest.takeWhile jsWS).length + 2) else none
      | [] => none
    else none

/-- Matcher for the pass of line 93: U+FFFD, optional whitespace, a hyphen,
optional trailing whitespace. -/
def q3Match (s : List Char) : Option Nat :=
  match s with
  | [] => none
  | c :: rest =>
    if c = '�' then
      match rest.drop (rest.takeWhile jsWS).length with
      | d :: rest2 =>
        if d = '-' then
          some ((rest.takeWhile jsWS).length + 2 + (rest2.takeWhile jsWS).length)
        else none
      | [] => none
    else none

/-- Matcher for the pass of line 94: a hyphen, optional whitespace,
U+FFFD. -/
def q4Match (s : List Char) : Option Nat :=
  match s with
  | [] => none
  | c :: rest =>
    if c = '-' then
      match rest.drop (rest.takeWhile jsWS).length with
      | d :: _ => if d = '�' then some ((rest.takeWhile jsWS).length + 2) else none
      | [] => none
    else none

/-- Matcher for `/�+/` (line 95): a maximal run of U+FFFD. -/
def q5Match (s : List Char) : Option Nat :=
  match (s.takeWhile (fun c => c == '�')).length with
  | 0 => none
  | n + 1 => some (n + 1)

/-- Matcher for `/[ \t]{2,}/` (line 97): a maximal run of at least two
spaces/tabs. -/
def spaceTabMatch (s : List Char) : Option Nat :=
  match (s.takeWhile (fun c => c == ' ' || c == '\t')).length with
  | 0 => none
  | 1 => none
  | n + 2 => some (n + 2)

/-- `s.replace(/\r\n/g, '\n')`. -/
def crlfToLf : List Char → List Char
  | [] => []
  | '\r' :: '\n' :: rest => '\n' :: crlfToLf rest
  | c :: rest => c :: crlfToLf rest

/-- `cleanDisplay(val)` (lines 67–99): coerce nullish to `''`, normalize
newlines and NBSP, the conditional mojibake redecode, the literal
replacement table, the U+FFFD cleanup passes, space collapse and trim.
It is a total function: the only fallible step is the decode, absorbed
inside `maybeRecodeUTF8`. -/
def cleanDisplay (decode : List Nat → Option (List Char)) (val : Option JSStr) : JSStr :=
  let s0 := val.getD []
  let s1 := (crlfToLf s0).map (fun c => if c = '\r' then '\n' else c)
  let s2 := s1.map (fun c => if c = '\u00A0' then ' ' else c)
  let s3 := maybeRecodeUTF8 decode s2
  let s4 := applyReps s3
  let s5 := replaceScan q1Match [ '–' ] s4
  let s6 := replaceScan q2Match [ '–' ] s5
  let s7 := replaceScan q3Match [ '-' ] s6
  let s8 := replaceScan q4Match [ '-' ] s7
  let s9 := replaceScan q5Match [] s8
  let s10 := replaceScan spaceTabMatch [ ' ' ] s9
  jsTrim s10

/-! ### Helper lemmas -/

/-- The row loop of `filterByIngredients` is exactly a `List.filter`:
rows with an empty key value are dropped, the others are kept iff their
resolved identity is in the target set, input order preserved. -/
theorem filterLoop_eq_filter (mi ai : MapL) (set : List JSStr) (rows : List Row) :
    filterLoop mi ai set rows =
      rows.filter (fun r => !(getKeyValue r).isEmpty && set.contains (rowId mi ai r)) := by
  induction rows with
  | nil => rfl
  | cons r rest ih =>
    by_cases hk : (getKeyValue r).isEmpty <;>
      by_cases hc : set.contains (rowId mi ai r) <;>
        simp [filterLoop, List.filter_cons, hk, hc, rowId, ih]

/-- A cons target set is neither missing nor empty. -/
theorem setIsMissingOrEmpty_cons (a : JSStr) (l : List JSStr) :
    setIsMissingOrEmpty (some (a :: l)) = false := rfl

/-- Unfolding of the `canonicalizeList` accumulator loop: it pushes the
resolved identity of each entry, skipping the falsy (empty) ones. -/
theorem canonPush (mi ai : MapL) (l : List (Option JSStr)) (acc : List JSStr) :
    l.foldl (fun acc name =>
        let c := entryId mi ai name
        if c.isEmpty then acc else acc ++ [c]) acc =
      acc ++ (l.map (entryId mi ai)).filter (fun c => !c.isEmpty) := by
  induction l generalizing acc with
  | nil => simp
  | cons n rest ih =>
    rw [List.foldl_cons, ih]
    show (if (entryId mi ai n).isEmpty then acc else acc ++ [entryId mi ai n]) ++ _ = _
    simp only [List.map_cons, List.filter_cons]
    by_cases h : (entryId mi ai n).isEmpty
    · rw [if_pos h]
      simp [h]
    · rw [if_neg h]
      simp [h]

/-- `canonicalizeList` on an actual array is the deduplicated list of
non-empty resolved identities, in first-seen order. -/
theorem canonicalizeList_eq (mi ai : MapL) (l : List (Option JSStr)) :
    canonicalizeList mi ai (some l) =
      dedupFirst ((l.map (entryId mi ai)).filter (fun c => !c.isEmpty)) := by
  show dedupFirst (l.foldl (fun acc name =>
      let c := entryId mi ai name
      if c.isEmpty then acc else acc ++ [c]) []) = _
  rw [canonPush]
  rfl

/-- Every element of the deduplicated list comes from the input list. -/
theorem mem_dedupFirstAux (seen l : List JSStr) (x : JSStr)
    (hx : x ∈ dedupFirstAux seen l) : x ∈ l := by
  induction l generalizing seen with
  | nil => simp [dedupFirstAux] at hx
  | cons a rest ih =>
    by_cases h : seen.contains a
    · simp only [dedupFirstAux, h, if_pos] at hx
      exact List.mem_cons_of_mem a (ih _ hx)
    · simp only [dedupFirstAux, h, if_neg, Bool.false_eq_true, not_false_iff] at hx
      rcases List.mem_cons.mp hx with h1 | h2
      · exact h1 ▸ List.mem_cons_self a rest
      · exact List.mem_cons_of_mem a (ih _ h2)

/-- Looking up a key that is neither in the map nor the appended binding
still fails. -/
theorem lookup_append_single_none (m : MapL) (k v x : JSStr)
    (hx : (x == k) = false) (hm : m.lookup x = none) :
    (m ++ [(k, v)]).lookup x = none := by
  induction m with
  | nil => simp [List.lookup, hx]
  | cons p rest ih =>
    cases p with
    | mk a b =>
      simp only [List.cons_append, List.lookup] at hm ⊢
      cases hbeq : (x == a) with
      | true => simp [hbeq] at hm
      | false => rw [hbeq] at hm; exact ih hm

/-- `setIfAbsent` with a key different from `x` cannot make `x` found. -/
theorem setIfAbsent_lookup_none (m : MapL) (k v x : JSStr)
    (hx : x ≠ k) (hm : m.lookup x = none) : (setIfAbsent m k v).lookup x = none := by
  unfold setIfAbsent
  by_cases h : (m.lookup k).isSome
  · simpa [h] using hm
  · simp only [h, Bool.false_eq_true, if_neg, not_false_iff]
    exact lookup_append_single_none m k v x (beq_eq_false_iff_ne.mpr hx) hm

/-- Alias tokens produced by `splitAliases` are never empty. -/
theorem splitAliases_nonempty (val : JSStr) (t : JSStr) (ht : t ∈ splitAliases val) :
    t ≠ [] := by
  unfold splitAliases at ht
  by_cases h : val.isEmpty
  · simp [h] at ht
  · simp only [h, Bool.false_eq_true, if_neg, not_false_iff, List.mem_filter] at ht
    intro hnil
    rw [hnil] at ht
    simp at ht

/-- Folding alias insertions over non-empty tokens never creates an entry
for the empty key. -/
theorem aliasFold_lookup_nil_none (toks : List JSStr) (canon : JSStr) (m : MapL)
    (hm : m.lookup ([] : JSStr) = none) (hts : ∀ t ∈ toks, t ≠ []) :
    (toks.foldl (fun m a => setIfAbsent m a canon) m).lookup ([] : JSStr) = none := by
  induction toks generalizing m with
  | nil => simpa using hm
  | cons t rest ih =>
    simp only [List.foldl_cons]
    exact ih (setIfAbsent m t canon)
      (setIfAbsent_lookup_none m t canon []
        (Ne.symm (hts t (List.mem_cons_self t rest))) hm)
      (fun a ha => hts a (List.mem_cons_of_mem t ha))

/-- One `buildMasterIndexes` step preserves "the alias index has no entry
for the empty string". -/
theorem buildStep_alias_nil_none (st : MapL × MapL) (row : Row)
    (h : st.2.lookup ([] : JSStr) = none) :
    (buildStep st row).2.lookup ([] : JSStr) = none := by
  unfold buildStep
  by_cases hk : (getKeyValue row).isEmpty
  · simpa [hk] using h
  · simp only [hk, Bool.false_eq_true, if_neg, not_false_iff]
    cases hp : pick row aliasColumns with
    | none => simpa using h
    | some aliasField =>
      by_cases hv : aliasField.2.isEmpty
      · simpa [hv] using h
      · simp only [hv, Bool.false_eq_true, if_neg, not_false_iff]
        exact aliasFold_lookup_nil_none _ _ _ h
          (fun t ht => splitAliases_nonempty aliasField.2 t ht)

/-! ### Claim theorems -/

/-- C1: with a non-empty target set, the renders-all `filterByIngredients`
returns exactly the rows whose key value is non-blank (non-empty, which is
what the source's falsy test `!keyVal` checks) and whose identity — resolved
through `lookupCanonical` with the trimmed-raw fallback — belongs to the
target set, in the original row order (`List.filter` preserves order). -/
theorem filterByIngredients_nonempty_spec (mi ai : MapL) (rows : List Row)
    (set : List JSStr) (hne : set ≠ []) :
    filterByIngredients mi ai rows (some set) =
      rows.filter (fun r => !(getKeyValue r).isEmpty && set.contains (rowId mi ai r)) := by
  cases set with
  | nil => exact absurd rfl hne
  | cons a l =>
    unfold filterByIngredients
    rw [setIsMissingOrEmpty_cons]
    simp only [Bool.false_eq_true, if_neg, not_false_iff, Option.getD_some]
    exact filterLoop_eq_filter mi ai (a :: l) rows

/-- Witness for C1, the spec's own example: with rows keyed Spinach, Kale,
Carrot and target set {Spinach, Carrot}, exactly the Spinach and Carrot rows
survive, in order. -/
theorem filterByIngredients_nonempty_spec_witness :
    filterByIngredients [] [] [
      [( "ingredient_name".toList, "Spinach".toList)],
      [( "ingredient_name".toList, "Kale".toList)],
      [( "ingredient_name".toList, "Carrot".toList)] ]
      (some [ "Spinach".toList, "Carrot".toList ]) =
    [ [( "ingredient_name".toList, "Spinach".toList)],
      [( "ingredient_name".toList, "Carrot".toList)] ] := by
  rw [filterByIngredients_nonempty_spec [] [] _ _ (by decide)]
  decide

/-- C2: the renders-all `filterByIngredients` with an empty target set
returns the whole input row list (the source's `tableRows.slice()` copy),
not an empty result. -/
theorem filterByIngredients_empty_set (mi ai : MapL) (rows : List Row) :
    filterByIngredients mi ai rows (some []) = rows := rfl

/-- C3: `lookupCanonical` consults the name index before the alias index —
whenever the (non-empty) normalized input has an entry in both, the name
index's canonical name wins; an input normalizing to the empty string is
never found; and the alias index built by `buildMasterIndexes` never
contains the empty normalized key (so the non-emptiness proviso is vacuous
for indexes the module actually builds). -/
theorem lookupCanonical_priority :
    (∀ mi ai : MapL, ∀ v : Option JSStr, ∀ a b : JSStr, norm v ≠ [] →
      mi.lookup (norm v) = some a → ai.lookup (norm v) = some b →
      lookupCanonical mi ai v = some a) ∧
    (∀ mi ai : MapL, ∀ v : Option JSStr, norm v = [] →
      lookupCanonical mi ai v = none) ∧
    (∀ master : List Row, (buildMasterIndexes master).2.lookup ([] : JSStr) = none) := by
  refine ⟨?_, ?_, ?_⟩
  · intro mi ai v a b hne hmi _hai
    unfold lookupCanonical
    simp [List.isEmpty_iff, hne, hmi]
  · intro mi ai v h
    unfold lookupCanonical
    simp [List.isEmpty_iff, h]
  · intro master
    unfold buildMasterIndexes
    have : ∀ (rows : List Row) (st : MapL × MapL), st.2.lookup ([] : JSStr) = none →
        (rows.foldl buildStep st).2.lookup ([] : JSStr) = none := by
      intro rows
      induction rows with
      | nil => intro st h; simpa using h
      | cons r rest ih =>
        intro st h
        exact ih (buildStep st r) (buildStep_alias_nil_none st r h)
    exact this master ([], []) rfl

/-- Witness for C3: an ingredient whose canonical name (`Kale A` with alias
key `kale`) shadows another ingredient's alias for the same normalized form:
the name index's answer is returned. -/
theorem lookupCanonical_priority_witness :
    lookupCanonical [( "kale".toList, "Kale A".toList)]
      [( "kale".toList, "Kale B".toList)] (some ( "Kale".toList)) =
      some ( "Kale A".toList) :=
  lookupCanonical_priority.1 [( "kale".toList, "Kale A".toList)]
    [( "kale".toList, "Kale B".toList)] (some ( "Kale".toList))
    ( "Kale A".toList) ( "Kale B".toList) (by decide) (by decide) (by decide)

/-- C5: `canonicalizeList` treats non-array input as the empty list, maps
every entry to `lookupCanonical`'s answer with the trimmed raw string as the
not-found fallback, keeps the result deduplicated in first-seen order, and
in particular keeps an unknown `"Moon Cheese"` unchanged. -/
theorem canonicalizeList_spec :
    (∀ mi ai : MapL, canonicalizeList mi ai none = []) ∧
    (∀ mi ai : MapL, ∀ l : List (Option JSStr),
      canonicalizeList mi ai (some l) =
        dedupFirst ((l.map (entryId mi ai)).filter (fun c => !c.isEmpty))) ∧
    (∀ mi ai : MapL, lookupCanonical mi ai (some ( "Moon Cheese".toList)) = none →
      canonicalizeList mi ai (some [some ( "Moon Cheese".toList)]) =
        [ "Moon Cheese".toList ]) := by
  refine ⟨fun mi ai => rfl, fun mi ai l => canonicalizeList_eq mi ai l, ?_⟩
  intro mi ai h
  rw [canonicalizeList_eq]
  simp only [List.map_cons, List.map_nil, entryId, h]
  decide

/-- Witness for C5: with empty indexes, `"Moon Cheese"` is indeed unknown
and survives unchanged. -/
theorem canonicalizeList_spec_witness :
    canonicalizeList [] [] (some [some ( "Moon Cheese".toList)]) =
      [ "Moon Cheese".toList ] :=
  canonicalizeList_spec.2.2 [] [] (by decide)

/-- C10: the output of `canonicalizeList` never contains the empty string
(`all` non-empty); in particular `null`/`undefined` entries and unknown
whitespace-only names are dropped rather than carried through the identity
fallback — unconditionally in the second conjunct, because a whitespace-only
name normalizes to the empty string regardless of the indexes. -/
theorem canonicalizeList_no_empty :
    (∀ mi ai : MapL, ∀ list : Option (List (Option JSStr)),
      (canonicalizeList mi ai list).all (fun c => !c.isEmpty) = true) ∧
    (∀ mi ai : MapL,
      canonicalizeList mi ai (some [none, some ( "   ".toList)]) = []) := by
  constructor
  · intro mi ai list
    rw [List.all_eq_true]
    intro c hc
    cases list with
    | none =>
      rw [show canonicalizeList mi ai none = [] from rfl] at hc
      simp at hc
    | some l =>
      rw [canonicalizeList_eq] at hc
      have := mem_dedupFirstAux [] _ c hc
      exact (List.mem_filter.mp this).2
  · intro mi ai
    have h1 : lookupCanonical mi ai none = none := rfl
    have h2 : lookupCanonical mi ai (some ( "   ".toList)) = none := rfl
    rw [canonicalizeList_eq]
    simp only [List.map_cons, List.map_nil, entryId, h1, h2]
    decide

/-- C6 fails on the code: a master row whose key value is whitespace-only
(blank after trimming but a truthy string) is **not** skipped — the
falsy test `!rawName` only catches the empty string.  The row inserts a
name-index entry under the empty normalized name and its alias `zzz` into
the alias index (mapping to the empty canonical name). -/
theorem buildMasterIndexes_ws_key_not_skipped :
    jsTrim (getKeyValue [( "ingredient_name".toList, " ".toList),
      ( "aliases".toList, "zzz".toList)]) = [] ∧
    buildMasterIndexes [[( "ingredient_name".toList, " ".toList),
      ( "aliases".toList, "zzz".toList)]] =
      ([(([] : JSStr), ([] : JSStr))], [( "zzz".toList, ([] : JSStr))]) := by
  constructor
  · decide
  · decide

/-- C6 amended: a master row is skipped entirely exactly when its key value
is missing or the empty string (the source's falsy test); such a row
contributes neither a name-index entry nor alias entries.  (Whitespace-only
key values are processed, as the counterexample shows.) -/
theorem buildMasterIndexes_empty_key_skipped :
    (∀ st : MapL × MapL, ∀ row : Row, getKeyValue row = [] → buildStep st row = st) ∧
    (∀ master : List Row, (∀ r ∈ master, getKeyValue r = []) →
      buildMasterIndexes master = ([], [])) := by
  have step : ∀ st : MapL × MapL, ∀ row : Row, getKeyValue row = [] → buildStep st row = st := by
    intro st row h
    unfold buildStep
    simp [h]
  refine ⟨step, ?_⟩
  intro master
  unfold buildMasterIndexes
  induction master with
  | nil => intro _; rfl
  | cons r rest ih =>
    intro h
    rw [List.foldl_cons, step ([], []) r (h r (List.mem_cons_self r rest))]
    exact ih (fun x hx => h x (List.mem_cons_of_mem r hx))

/-- Witness for C6 (amended): a row with no recognizable key column at all
is skipped by the step function. -/
theorem buildMasterIndexes_empty_key_skipped_witness :
    buildStep ([], []) [( "foo".toList, "bar".toList)] = ([], []) :=
  buildMasterIndexes_empty_key_skipped.1 ([], []) _ (by decide)

/-- C8: `chooseHeaders` equals the first-seen-order union of all row keys
filtered to the acceptably-named columns that are non-blank in some row —
in particular a bad-named column is excluded no matter its values, an
all-blank column is excluded, and (being a pure function of `rows`) repeated
calls return the same ordered list.  The three concrete names of the spec
are rejected by the name test. -/
theorem chooseHeaders_spec :
    (∀ rows : List Row, chooseHeaders rows =
      (keysUnion rows).filter (fun h => isHeaderNameOk h && someNonblank rows h)) ∧
    isHeaderNameOk ( "Unnamed: 2".toList) = false ∧
    isHeaderNameOk ( "_1".toList) = false ∧
    isHeaderNameOk ( "Column3".toList) = false := by
  refine ⟨?_, by decide, by decide, by decide⟩
  intro rows
  cases rows with
  | nil => rfl
  | cons r rest =>
    unfold chooseHeaders
    rw [if_neg (by simp)]
    rw [List.filter_filter]
    exact List.filter_congr (fun h _ => Bool.and_comm _ _)

/-- C9: the renders-all revision (line 216) and the superseded revision
(line 1382) of `filterByIngredients` agree whenever the target set is
non-empty (they share the same row loop), and differ exactly in the
missing/empty-set fallback: all rows versus no rows. -/
theorem filterByIngredients_revisions :
    (∀ mi ai : MapL, ∀ rows : List Row, ∀ set : List JSStr, set ≠ [] →
      filterByIngredients mi ai rows (some set) =
        filterByIngredientsV2 mi ai rows (some set)) ∧
    (∀ mi ai : MapL, ∀ rows : List Row,
      filterByIngredients mi ai rows (some []) = rows ∧
      filterByIngredients mi ai rows none = rows ∧
      filterByIngredientsV2 mi ai rows (some []) = [] ∧
      filterByIngredientsV2 mi ai rows none = []) := by
  constructor
  · intro mi ai rows set hne
    cases set with
    | nil => exact absurd rfl hne
    | cons a l =>
      unfold filterByIngredients filterByIngredientsV2
      rw [setIsMissingOrEmpty_cons]
      simp
  · intro mi ai rows
    exact ⟨rfl, rfl, rfl, rfl⟩

/-- Witness for C9: on a singleton table and a one-ingredient set, the two
revisions compute the same (non-empty) result. -/
theorem filterByIngredients_revisions_witness :
    filterByIngredients [] [] [[( "name".toList, "Kale".toList)]]
      (some [ "Kale".toList ]) =
    filterByIngredientsV2 [] [] [[( "name".toList, "Kale".toList)]]
      (some [ "Kale".toList ]) :=
  filterByIngredients_revisions.1 [] [] _ _ (by decide)

/-- C7 fails as stated: the redecode step accepts the reinterpretation on
`score(decoded) <= score(s)` (line 60), not only on strictly fewer markers.
On the two-character input `Ã` + U+0083 the bytes `C3 83` decode to the
single character `Ã`, whose marker count equals the original's (1 = 1), and
the code still adopts the decoded text. -/
theorem maybeRecode_accepts_equal_markers :
    maybeRecodeUTF8 utf8DecodeOpt [ 'Ã', '\u0083' ] = [ 'Ã' ] ∧
    countMarkers (utf8Decode ([ 'Ã', '\u0083' ].map lowByte)) =
      countMarkers [ 'Ã', '\u0083' ] ∧
    [ 'Ã' ] ≠ [ 'Ã', '\u0083' ] :=
  ⟨by decide, by decide, by decide⟩

/-- C7 amended: the redecode step accepts the redecoded byte
reinterpretation exactly when its artifact-marker count is less than or
equal to the original's; when decoding fails (the caught exception path)
the original text is kept; non-suspect text is returned untouched; the BOM
strip of line 62 runs on every suspect path.  `repairForDisplay`
(`cleanDisplay`) never throws: it is a total function for every decoder,
the only fallible step being the decode absorbed here; in particular
nullish input yields the empty string. -/
theorem maybeRecodeUTF8_spec :
    (∀ decode : List Nat → Option (List Char), ∀ s : List Char,
      isSuspect s = false → maybeRecodeUTF8 decode s = s) ∧
    (∀ decode : List Nat → Option (List Char), ∀ s : List Char,
      isSuspect s = true → decode (s.map lowByte) = none →
      maybeRecodeUTF8 decode s = stripBOM s) ∧
    (∀ decode : List Nat → Option (List Char), ∀ s d : List Char,
      isSuspect s = true → decode (s.map lowByte) = some d →
      countMarkers d ≤ countMarkers s → maybeRecodeUTF8 decode s = stripBOM d) ∧
    (∀ decode : List Nat → Option (List Char), ∀ s d : List Char,
      isSuspect s = true → decode (s.map lowByte) = some d →
      countMarkers s < countMarkers d → maybeRecodeUTF8 decode s = stripBOM s) ∧
    (∀ decode : List Nat → Option (List Char), cleanDisplay decode none = []) := by
  refine ⟨?_, ?_, ?_, ?_, ?_⟩
  · intro decode s h
    unfold maybeRecodeUTF8
    simp [h]
  · intro decode s h hd
    unfold maybeRecodeUTF8
    simp [h, hd]
  · intro decode s d h hd hle
    unfold maybeRecodeUTF8
    simp [h, hd, hle]
  · intro decode s d h hd hlt
    unfold maybeRecodeUTF8
    simp [h, hd, Nat.not_le.mpr hlt]
  · intro decode
    show jsTrim (replaceScan spaceTabMatch [ ' ' ] (replaceScan q5Match []
      (replaceScan q4Match [ '-' ] (replaceScan q3Match [ '-' ]
      (replaceScan q2Match [ '–' ] (replaceScan q1Match [ '–' ]
      (applyReps (maybeRecodeUTF8 decode [])))))))) = []
    rw [show maybeRecodeUTF8 decode [] = [] from rfl]
    rfl

/-- Witness for C7 (amended), at the counterexample input: the acceptance
branch fires with equal marker counts. -/
theorem maybeRecodeUTF8_spec_witness :
    maybeRecodeUTF8 utf8DecodeOpt [ 'Ã', '\u0083' ] =
      stripBOM (utf8Decode [0xC3, 0x83]) :=
  maybeRecodeUTF8_spec.2.2.1 utf8DecodeOpt [ 'Ã', '\u0083' ]
    (utf8Decode [0xC3, 0x83]) (by decide) (by decide) (by decide)

/-! ### Normalization idempotence (towards C4) -/

/-- `Char.ofNat` of a code below the surrogate range keeps its value. -/
theorem toNat_ofNat_lt (n : Nat) (h : n < 0xD800) : (Char.ofNat n).toNat = n := by
  unfold Char.ofNat
  split
  · rfl
  · rename_i hv
    exact absurd (Or.inl h) hv

/-- Characters with different codes differ. -/
theorem char_ne_of_toNat_ne (c d : Char) (h : c.toNat ≠ d.toNat) : c ≠ d :=
  fun he => h (congrArg Char.toNat he)

/-- `nfkcChar` is the identity away from its six-entry table
(character-inequality form). -/
theorem nfkcChar_fix_ne (c : Char)
    (h0 : c ≠ ' ') (h1 : c ≠ 'ﬁ') (h2 : c ≠ 'ﬂ')
    (h3 : c ≠ 'Ａ') (h4 : c ≠ 'ａ') (h5 : c ≠ '１') :
    nfkcChar c = [c] := by
  unfold nfkcChar
  rw [if_neg h0, if_neg h1, if_neg h2, if_neg h3, if_neg h4, if_neg h5]

/-- `nfkcChar` is the identity away from its table (code form). -/
theorem nfkcChar_fix (c : Char)
    (h0 : c.toNat ≠ 0xA0) (h1 : c.toNat ≠ 0xFB01) (h2 : c.toNat ≠ 0xFB02)
    (h3 : c.toNat ≠ 0xFF21) (h4 : c.toNat ≠ 0xFF41) (h5 : c.toNat ≠ 0xFF11) :
    nfkcChar c = [c] :=
  nfkcChar_fix_ne c (char_ne_of_toNat_ne c _ h0) (char_ne_of_toNat_ne c _ h1)
    (char_ne_of_toNat_ne c _ h2) (char_ne_of_toNat_ne c _ h3)
    (char_ne_of_toNat_ne c _ h4) (char_ne_of_toNat_ne c _ h5)

/-- `lowerChar` is the identity away from the two uppercase ranges and `İ`. -/
theorem lowerChar_fix (c : Char)
    (h1 : ¬(0x41 ≤ c.toNat ∧ c.toNat ≤ 0x5A))
    (h2 : ¬(0xC0 ≤ c.toNat ∧ c.toNat ≤ 0xDE ∧ c.toNat ≠ 0xD7))
    (h3 : c.toNat ≠ 0x130) :
    lowerChar c = [c] := by
  unfold lowerChar
  rw [if_neg h1, if_neg h2, if_neg (char_ne_of_toNat_ne c '\u0130' h3)]

/-- A character produced by the NFKC model followed by the lowercase model
is fixed by both maps: this is the character-level core of idempotence. -/
theorem lower_nfkc_out_fix (a b c : Char)
    (hb : b ∈ nfkcChar a) (hc : c ∈ lowerChar b) :
    nfkcChar c = [c] ∧ lowerChar c = [c] := by
  have hbcases : b ∈ [ ' ', 'f', 'i', 'l', 'A', 'a', '1' ] ∨ nfkcChar b = [b] := by
    unfold nfkcChar at hb
    split_ifs at hb with g0 g1 g2 g3 g4 g5 <;> simp only [List.mem_singleton,
      List.mem_cons, List.not_mem_nil, or_false] at hb
    · left; rw [hb]; decide
    · left; rcases hb with hb | hb <;> (rw [hb]; decide)
    · left; rcases hb with hb | hb <;> (rw [hb]; decide)
    · left; rw [hb]; decide
    · left; rw [hb]; decide
    · left; rw [hb]; decide
    · right
      rw [hb]
      exact nfkcChar_fix_ne a g0 g1 g2 g3 g4 g5
  unfold lowerChar at hc
  split_ifs at hc with k1 k2 k3 <;> simp only [List.mem_singleton,
    List.mem_cons, List.not_mem_nil, or_false] at hc
  · -- ASCII uppercase input: the output code is in the lowercase range
    have hv : b.toNat + 0x20 < 0xD800 := by omega
    have ht : c.toNat = b.toNat + 0x20 := by rw [hc]; exact toNat_ofNat_lt _ hv
    constructor
    · exact nfkcChar_fix c (by omega) (by omega) (by omega) (by omega) (by omega) (by omega)
    · exact lowerChar_fix c (by omega) (by omega) (by omega)
  · -- Latin-1 uppercase input
    have hv : b.toNat + 0x20 < 0xD800 := by omega
    have ht : c.toNat = b.toNat + 0x20 := by rw [hc]; exact toNat_ofNat_lt _ hv
    constructor
    · exact nfkcChar_fix c (by omega) (by omega) (by omega) (by omega) (by omega) (by omega)
    · exact lowerChar_fix c (by omega) (by omega) (by omega)
  · -- İ: the two output characters are concrete
    rcases hc with hc | hc <;> (rw [hc]; exact ⟨by decide, by decide⟩)
  · -- identity branch of the lowercase model
    rw [hc]
    have hlb : lowerChar b = [b] := by
      unfold lowerChar
      rw [if_neg k1, if_neg k2, if_neg k3]
    refine ⟨?_, hlb⟩
    rcases hbcases with h7 | hfix
    · simp only [List.mem_cons, List.not_mem_nil, or_false] at h7
      rcases h7 with h | h | h | h | h | h | h <;> (rw [h]; decide)
    · exact hfix

/-- Every character of `nfkcStr l` comes from `nfkcChar` of some input
character. -/
theorem mem_nfkcStr (l : List Char) (c : Char) (h : c ∈ nfkcStr l) :
    ∃ a ∈ l, c ∈ nfkcChar a := by
  induction l with
  | nil => simp [nfkcStr] at h
  | cons a rest ih =>
    simp only [nfkcStr] at h
    rcases List.mem_append.mp h with h1 | h2
    · exact ⟨a, List.mem_cons_self a rest, h1⟩
    · obtain ⟨x, hx, hcx⟩ := ih h2
      exact ⟨x, List.mem_cons_of_mem a hx, hcx⟩

/-- Every character of `lowerStr l` comes from `lowerChar` of some input
character. -/
theorem mem_lowerStr (l : List Char) (c : Char) (h : c ∈ lowerStr l) :
    ∃ a ∈ l, c ∈ lowerChar a := by
  induction l with
  | nil => simp [lowerStr] at h
  | cons a rest ih =>
    simp only [lowerStr] at h
    rcases List.mem_append.mp h with h1 | h2
    · exact ⟨a, List.mem_cons_self a rest, h1⟩
    · obtain ⟨x, hx, hcx⟩ := ih h2
      exact ⟨x, List.mem_cons_of_mem a hx, hcx⟩

/-- `nfkcStr` fixes a string all of whose characters it fixes. -/
theorem nfkcStr_fix (l : List Char) (h : ∀ c ∈ l, nfkcChar c = [c]) :
    nfkcStr l = l := by
  induction l with
  | nil => rfl
  | cons a rest ih =>
    simp only [nfkcStr]
    rw [h a (List.mem_cons_self a rest),
      ih (fun c hc => h c (List.mem_cons_of_mem a hc))]
    rfl

/-- `lowerStr` fixes a string all of whose characters it fixes. -/
theorem lowerStr_fix (l : List Char) (h : ∀ c ∈ l, lowerChar c = [c]) :
    lowerStr l = l := by
  induction l with
  | nil => rfl
  | cons a rest ih =>
    simp only [lowerStr]
    rw [h a (List.mem_cons_self a rest),
      ih (fun c hc => h c (List.mem_cons_of_mem a hc))]
    rfl

/-- Unfolding of `squashAux` at a whitespace head, start mode. -/
theorem squashAux_ws_start (a : Char) (rest : List Char) (hw : jsWS a = true) :
    squashAux false (a :: rest) = ' ' :: squashAux true rest := by
  simp [squashAux, hw]

/-- Unfolding of `squashAux` at a whitespace head, continuation mode. -/
theorem squashAux_ws_cont (a : Char) (rest : List Char) (hw : jsWS a = true) :
    squashAux true (a :: rest) = squashAux true rest := by
  simp [squashAux, hw]

/-- Unfolding of `squashAux` at a non-whitespace head (either mode). -/
theorem squashAux_nws (fl : Bool) (a : Char) (rest : List Char) (hw : jsWS a = false) :
    squashAux fl (a :: rest) = a :: squashAux false rest := by
  cases fl <;> simp [squashAux, hw]

/-- Characters of the whitespace-collapsed string are the space or input
characters. -/
theorem mem_squashAux (l : List Char) (c : Char) :
    ∀ fl : Bool, c ∈ squashAux fl l → c = ' ' ∨ c ∈ l := by
  induction l with
  | nil => intro fl h; simp [squashAux] at h
  | cons a rest ih =>
    intro fl h
    cases hw : jsWS a with
    | true =>
      cases fl with
      | true =>
        rw [squashAux_ws_cont a rest hw] at h
        rcases ih true h with h1 | h2
        · exact Or.inl h1
        · exact Or.inr (List.mem_cons_of_mem a h2)
      | false =>
        rw [squashAux_ws_start a rest hw] at h
        rcases List.mem_cons.mp h with h1 | h2
        · exact Or.inl h1
        · rcases ih true h2 with h3 | h4
          · exact Or.inl h3
          · exact Or.inr (List.mem_cons_of_mem a h4)
    | false =>
      rw [squashAux_nws fl a rest hw] at h
      rcases List.mem_cons.mp h with h1 | h2
      · exact Or.inr (h1 ▸ List.mem_cons_self a rest)
      · rcases ih false h2 with h3 | h4
        · exact Or.inl h3
        · exact Or.inr (List.mem_cons_of_mem a h4)

/-- The collapsed string's whitespace is all plain spaces, no two adjacent
characters are both whitespace, and in continuation mode the output starts
with a non-whitespace character. -/
theorem squash_props (l : List Char) :
    ((∀ c ∈ squashAux false l, jsWS c = true → c = ' ') ∧
     (∀ c ∈ squashAux true l, jsWS c = true → c = ' ')) ∧
    (List.Chain' (fun a b : Char => jsWS a = true → jsWS b = false) (squashAux false l) ∧
     List.Chain' (fun a b : Char => jsWS a = true → jsWS b = false) (squashAux true l)) ∧
    (∀ d, (squashAux true l).head? = some d → jsWS d = false) := by
  induction l with
  | nil =>
    refine ⟨⟨?_, ?_⟩, ⟨?_, ?_⟩, ?_⟩ <;> simp [squashAux]
  | cons a rest ih =>
    obtain ⟨⟨w0, w1⟩, ⟨c0, c1⟩, hd1⟩ := ih
    cases hw : jsWS a with
    | true =>
      have e0 : squashAux false (a :: rest) = ' ' :: squashAux true rest :=
        squashAux_ws_start a rest hw
      have e1 : squashAux true (a :: rest) = squashAux true rest :=
        squashAux_ws_cont a rest hw
      refine ⟨⟨?_, ?_⟩, ⟨?_, ?_⟩, ?_⟩
      · intro c hc _
        rw [e0] at hc
        rcases List.mem_cons.mp hc with h1 | h2
        · exact h1
        · exact w1 c h2 (by assumption)
      · intro c hc hwc
        rw [e1] at hc
        exact w1 c hc hwc
      · rw [e0]
        rw [List.chain'_cons']
        exact ⟨fun y hy => fun _ => hd1 y hy, c1⟩
      · rw [e1]; exact c1
      · intro d hd
        rw [e1] at hd
        exact hd1 d hd
    | false =>
      have e0 : squashAux false (a :: rest) = a :: squashAux false rest :=
        squashAux_nws false a rest hw
      have e1 : squashAux true (a :: rest) = a :: squashAux false rest :=
        squashAux_nws true a rest hw
      have hwf : jsWS a = false := hw
      have wcons : ∀ c ∈ a :: squashAux false rest, jsWS c = true → c = ' ' := by
        intro c hc hwc
        rcases List.mem_cons.mp hc with h1 | h2
        · rw [h1] at hwc; rw [hwf] at hwc; exact absurd hwc (by simp)
        · exact w0 c h2 hwc
      have ccons : List.Chain' (fun a b : Char => jsWS a = true → jsWS b = false)
          (a :: squashAux false rest) := by
        rw [List.chain'_cons']
        refine ⟨fun y _ => fun hwa => absurd (hwf ▸ hwa) (by simp), c0⟩
      refine ⟨⟨?_, ?_⟩, ⟨?_, ?_⟩, ?_⟩
      · rw [e0]; exact wcons
      · rw [e1]; exact wcons
      · rw [e0]; exact ccons
      · rw [e1]; exact ccons
      · intro d hd
        rw [e1] at hd
        simp only [List.head?_cons, Option.some.injEq] at hd
        rw [← hd]
        exact hwf

/-- A string whose whitespace is all single spaces with no two adjacent is
fixed by the whitespace-collapsing pass. -/
theorem squashAux_id (l : List Char)
    (h1 : ∀ c ∈ l, jsWS c = true → c = ' ')
    (h2 : List.Chain' (fun a b : Char => jsWS a = true → jsWS b = false) l) :
    squashAux false l = l := by
  induction l with
  | nil => rfl
  | cons a rest ih =>
    have hrest : squashAux false rest = rest :=
      ih (fun c hc hwc => h1 c (List.mem_cons_of_mem a hc) hwc) h2.tail
    cases hw : jsWS a with
    | true =>
      have ha : a = ' ' := h1 a (List.mem_cons_self a rest) hw
      cases rest with
      | nil =>
        rw [squashAux_ws_start a [] hw, ha]
        rfl
      | cons d t =>
        have hd : jsWS d = false :=
          (List.chain'_cons.mp h2).1 hw
        rw [squashAux_ws_start a (d :: t) hw, squashAux_nws true d t hd]
        rw [squashAux_nws false d t hd] at hrest
        have htt : squashAux false t = t := (List.cons.inj hrest).2
        rw [htt, ha]
    | false =>
      rw [squashAux_nws false a rest hw, hrest]

/-- One-step unfolding of `dropTrailing`. -/
theorem dropTrailing_cons (a : Char) (rest : List Char) :
    dropTrailing (a :: rest) =
      if (dropTrailing rest).isEmpty && jsWS a then [] else a :: dropTrailing rest := rfl

/-- `dropTrailing` yields a sublist. -/
theorem dropTrailing_sublist (l : List Char) : (dropTrailing l).Sublist l := by
  induction l with
  | nil => exact List.Sublist.refl []
  | cons a rest ih =>
    simp only [dropTrailing]
    split
    · exact List.nil_sublist _
    · exact ih.cons₂ a

/-- `dropTrailing` keeps the head of a string when its result is
non-empty. -/
theorem dropTrailing_head (l : List Char) (d : Char)
    (h : (dropTrailing l).head? = some d) : l.head? = some d := by
  cases l with
  | nil => simp [dropTrailing] at h
  | cons a rest =>
    simp only [dropTrailing] at h
    split at h
    · simp at h
    · simp only [List.head?_cons, Option.some.injEq] at h
      rw [List.head?_cons, h]

/-- The last character left by `dropTrailing` is not whitespace. -/
theorem dropTrailing_last_not_ws (l : List Char) (c : Char)
    (h : (dropTrailing l).getLast? = some c) : jsWS c = false := by
  induction l with
  | nil => simp [dropTrailing] at h
  | cons a rest ih =>
    simp only [dropTrailing] at h
    split at h
    · simp at h
    · rename_i hcond
      cases hr : dropTrailing rest with
      | nil =>
        rw [hr] at h
        simp only [List.getLast?_singleton, Option.some.injEq] at h
        rw [← h]
        rw [hr] at hcond
        simp only [List.isEmpty_nil, Bool.true_and] at hcond
        cases hwa : jsWS a
        · rfl
        · exact absurd hwa hcond
      | cons d t =>
        rw [hr] at h
        rw [List.getLast?_cons_cons] at h
        rw [← hr] at h
        exact ih h

/-- A string whose last character is not whitespace is fixed by
`dropTrailing`. -/
theorem dropTrailing_id (l : List Char)
    (h : ∀ c, l.getLast? = some c → jsWS c = false) : dropTrailing l = l := by
  induction l with
  | nil => rfl
  | cons a rest ih =>
    cases rest with
    | nil =>
      have ha : jsWS a = false := h a (by simp)
      simp [dropTrailing, ha]
    | cons d t =>
      have hrest : dropTrailing (d :: t) = d :: t :=
        ih (fun c hc => h c (by rw [List.getLast?_cons_cons]; exact hc))
      rw [dropTrailing_cons a (d :: t), hrest]
      simp

/-- A string whose head is not whitespace is fixed by the leading trim. -/
theorem dropWhile_id (p : Char → Bool) (l : List Char)
    (h : ∀ c, l.head? = some c → p c = false) : l.dropWhile p = l := by
  cases l with
  | nil => rfl
  | cons a rest =>
    have ha : p a = false := h a rfl
    simp [List.dropWhile_cons, ha]

/-- The head left by `dropWhile` fails the predicate. -/
theorem dropWhile_head_false (p : Char → Bool) (l : List Char) (c : Char)
    (h : (l.dropWhile p).head? = some c) : p c = false := by
  have hx := List.head?_dropWhile_not p l
  rw [h] at hx
  exact hx

/-- The head character of a trimmed string is not whitespace. -/
theorem jsTrim_head_not_ws (l : List Char) (c : Char)
    (h : (jsTrim l).head? = some c) : jsWS c = false :=
  dropWhile_head_false jsWS l c (dropTrailing_head _ c h)

/-- The last character of a trimmed string is not whitespace. -/
theorem jsTrim_last_not_ws (l : List Char) (c : Char)
    (h : (jsTrim l).getLast? = some c) : jsWS c = false :=
  dropTrailing_last_not_ws _ c h

/-- A string with non-whitespace ends is fixed by `jsTrim`. -/
theorem jsTrim_id (l : List Char)
    (hh : ∀ c, l.head? = some c → jsWS c = false)
    (hl : ∀ c, l.getLast? = some c → jsWS c = false) : jsTrim l = l := by
  unfold jsTrim
  rw [dropWhile_id jsWS l hh]
  exact dropTrailing_id l hl

/-- `jsTrim` yields a sublist. -/
theorem jsTrim_sublist (l : List Char) : (jsTrim l).Sublist l :=
  (dropTrailing_sublist _).trans (List.dropWhile_suffix jsWS).sublist

/-- `dropTrailing` yields an initial segment of its input. -/
theorem dropTrailing_isPre (l : List Char) : dropTrailing l <+: l := by
  induction l with
  | nil => exact List.nil_prefix
  | cons a rest ih =>
    simp only [dropTrailing]
    split
    · exact List.nil_prefix
    · obtain ⟨t, ht⟩ := ih
      exact ⟨t, by rw [List.cons_append, ht]⟩

/-- `jsTrim` preserves the no-two-adjacent-whitespace chain. -/
theorem jsTrim_chain (l : List Char)
    (h : List.Chain' (fun a b : Char => jsWS a = true → jsWS b = false) l) :
    List.Chain' (fun a b : Char => jsWS a = true → jsWS b = false) (jsTrim l) := by
  unfold jsTrim
  have h1 : List.Chain' (fun a b : Char => jsWS a = true → jsWS b = false)
      (l.dropWhile jsWS) := h.suffix (List.dropWhile_suffix jsWS)
  exact h1.prefix (dropTrailing_isPre (l.dropWhile jsWS))

/-- Every character of `normStr s` is fixed by both character maps and kept
by the character filter. -/
theorem normStr_chars (s : List Char) :
    ∀ c ∈ normStr s, (nfkcChar c = [c] ∧ lowerChar c = [c]) ∧ keepChar c = true := by
  intro c hc
  have hsq : c ∈ squashWS ((lowerStr (nfkcStr s)).filter keepChar) :=
    (jsTrim_sublist _).mem hc
  rcases mem_squashAux _ c false hsq with hsp | hmem
  · exact hsp ▸ ⟨⟨by decide, by decide⟩, by decide⟩
  · have hkeep := (List.mem_filter.mp hmem).2
    have hlow := (List.mem_filter.mp hmem).1
    obtain ⟨b, hb, hcb⟩ := mem_lowerStr _ c hlow
    obtain ⟨a, _, hba⟩ := mem_nfkcStr _ b hb
    exact ⟨lower_nfkc_out_fix a b c hba hcb, hkeep⟩

/-- The whitespace structure of `normStr s`: all whitespace is single
spaces, never adjacent. -/
theorem normStr_squashed (s : List Char) :
    (∀ c ∈ normStr s, jsWS c = true → c = ' ') ∧
    List.Chain' (fun a b : Char => jsWS a = true → jsWS b = false) (normStr s) := by
  have hp := squash_props ((lowerStr (nfkcStr s)).filter keepChar)
  constructor
  · intro c hc hwc
    exact hp.1.1 c ((jsTrim_sublist _).mem hc) hwc
  · exact jsTrim_chain _ hp.2.1.1

/-- Idempotence of the `norm` pipeline on strings. -/
theorem normStr_idem (s : List Char) : normStr (normStr s) = normStr s := by
  have hchars := normStr_chars s
  have hsq := normStr_squashed s
  have hnf : nfkcStr (normStr s) = normStr s :=
    nfkcStr_fix _ (fun c hc => (hchars c hc).1.1)
  have hlo : lowerStr (normStr s) = normStr s :=
    lowerStr_fix _ (fun c hc => (hchars c hc).1.2)
  have hfil : (normStr s).filter keepChar = normStr s :=
    List.filter_eq_self.mpr (fun c hc => (hchars c hc).2)
  have hsquash : squashWS (normStr s) = normStr s :=
    squashAux_id _ hsq.1 hsq.2
  have htrim : jsTrim (normStr s) = normStr s :=
    jsTrim_id _ (jsTrim_head_not_ws _) (jsTrim_last_not_ws _)
  show jsTrim (squashWS ((lowerStr (nfkcStr (normStr s))).filter keepChar)) = normStr s
  rw [hnf, hlo, hfil, hsquash, htrim]

/-- C4: `norm` is total by construction (a Lean function, every fallible
JS step — the `String(s || '')` coercion — is modelled explicitly), returns
the empty string on `null`/`undefined`/empty input, and is idempotent, both
on the raw string pipeline and through the JS-facing wrapper. -/
theorem norm_total_idempotent :
    norm none = [] ∧ norm (some []) = [] ∧
    (∀ s : List Char, normStr (normStr s) = normStr s) ∧
    (∀ v : Option JSStr, norm (some (norm v)) = norm v) :=
  ⟨rfl, rfl, normStr_idem, fun v => normStr_idem (v.getD [])⟩

end NT
